import Mathlib

/-!
Verification of the VIMER repository fragments: the FUNSD dataset label
encoder/decoder (`LabelConverter`), annotation parsing and box sorting from
`dataset.py`, the random-erasing pixel-fill helper, and the
optimizer/scheduler utilities.  Python strings are modelled as `List Char`,
fallible operations as `Option`/`Except`, and machine floats that only flow
through comparisons and list bookkeeping as `ℚ`.
-/

namespace VIMER

/-! ### Lexicon and tokens (dataset.py) -/

/-- The 95 printable characters of `Lexicon_Table_95`. -/
def Lexicon_Table_95 : List Char :=
  ['!', '\x22', '#', '$', '%', '&', '\x27', '(', ')', '*', '+', ',', '-', '.', '/',
   '0', '1', '2', '3', '4', '5', '6', '7', '8', '9', ':', ';', '<', '=', '>', '?', '@',
   'A', 'B', 'C', 'D', 'E', 'F', 'G', 'H', 'I', 'J', 'K', 'L', 'M', 'N', 'O', 'P', 'Q',
   'R', 'S', 'T', 'U', 'V', 'W', 'X', 'Y', 'Z', '[', '\x5c', ']', '^', '_', '\x60',
   'a', 'b', 'c', 'd', 'e', 'f', 'g', 'h', 'i', 'j', 'k', 'l', 'm', 'n', 'o', 'p',
   'q', 'r', 's', 't', 'u', 'v', 'w', 'x', 'y', 'z', '\x7b', '|', '\x7d', '~', ' ']

/-- The `[PAD]` token string, as a character list. -/
def padTok : List Char := ['[', 'P', 'A', 'D', ']']

/-- The `[STOP]` token string, as a character list. -/
def stopTok : List Char := ['[', 'S', 'T', 'O', 'P', ']']

/-- `self.idx2char = list(tokens) + list(lexicon)`: entries are the token
strings followed by the 95 single-character strings. -/
def idx2char : List (List Char) := [padTok, stopTok] ++ Lexicon_Table_95.map (fun c => [c])

/-- Position of `tok` in a list of entries, counting from `i`. -/
def lookupIdx (tok : List Char) : List (List Char) → Nat → Option Nat
  | [], _ => none
  | t :: rest, i => if t = tok then some i else lookupIdx tok rest (i + 1)

/-- `self.char2idx`: the inverse dictionary, mapping each entry of `idx2char`
to its position (all entries are distinct, so the first position is the one
the Python loop stores last as well). -/
def char2idx (tok : List Char) : Option Nat :=
  lookupIdx tok idx2char 0

/-- Python `str.upper()` restricted to ASCII text, applied per character. -/
def pyUpper (text : List Char) : List Char := text.map Char.toUpper

/-! ### LabelConverter.encode -/

/-- `[self.char2idx[char] for char in text]`, failing (KeyError) when a token
is not in the dictionary. -/
def mapChar2Idx : List (List Char) → Option (List Nat)
  | [] => some []
  | tok :: rest =>
    match char2idx tok, mapChar2Idx rest with
    | some i, some r => some (i :: r)
    | _, _ => none

/-- `LabelConverter.encode(text, ignore_tag)` for a converter with maximal
sequence length `seq_len`.  Returns `(new_text_idx, text_idx)`, or `none` on
the Python `KeyError`. -/
def encode (seq_len : Nat) (text : List Char) (ignore_tag : Bool) :
    Option (List Nat × List Nat) :=
  let text := if ignore_tag then [] else text
  let text := pyUpper text
  let toks := text.map (fun c => [c]) ++ [stopTok]
  match mapChar2Idx toks, char2idx padTok with
  | some text_idx, some pad_idx =>
    let text_len := toks.length
    let new_text_idx :=
      if text_len > seq_len then text_idx.take seq_len
      else text_idx ++ (List.replicate seq_len pad_idx).drop text_len
    some (new_text_idx, text_idx)
  | _, _ => none

/-! ### LabelConverter.decode -/

/-- `[self.idx2char[idx] for idx in text_idx]`, failing (IndexError) on an
out-of-range index. -/
def mapIdx2Char : List Nat → Option (List (List Char))
  | [] => some []
  | i :: rest =>
    match idx2char[i]?, mapIdx2Char rest with
    | some s, some r => some (s :: r)
    | _, _ => none

/-- `''.join([self.idx2char[idx] for idx in text_idx])`. -/
def joinToks (l : List Nat) : Option (List Char) :=
  (mapIdx2Char l).map List.flatten

/-- First index at which `pat` occurs as a contiguous sublist, i.e. Python
`text.find(pat)` with `none` for `-1`. -/
def findSub (pat : List Char) : List Char → Option Nat
  | [] => if pat.isPrefixOf ([] : List Char) then some 0 else none
  | c :: rest =>
    if pat.isPrefixOf (c :: rest) then some 0
    else (findSub pat rest).map (fun n => n + 1)

/-- `text[:text.find('[STOP]')]` when the stop token occurs, else `text`. -/
def truncAtStop (text : List Char) : List Char :=
  match findSub stopTok text with
  | some n => text.take n
  | none => text

/-- The CTC branch of `decode`: keep `t` at position `i` when `t != 0` and
(`i == 0` or `t != text_idx[i - 1]`); `prev` carries the previous element. -/
def ctcKeep : List Nat → Option Nat → List Nat
  | [], _ => []
  | t :: rest, prev =>
    if t ≠ 0 ∧ prev ≠ some t then t :: ctcKeep rest (some t)
    else ctcKeep rest (some t)

/-- `LabelConverter.decode(text_idx)` for recognition loss `recg_loss`.
`none` models the IndexError on an out-of-range index, and the unbound
`text` when `recg_loss` is neither `CE` nor `CTC`. -/
def decode (recg_loss : String) (text_idx : List Nat) : Option (List Char) :=
  let text? : Option (List Char) :=
    if recg_loss = "CE" then joinToks text_idx
    else if recg_loss = "CTC" then joinToks (ctcKeep text_idx none)
    else none
  text?.map truncAtStop

/-! ### Reference computation for CTC decoding, following the spec wording -/

/-- Reference phase 1 (spec wording): collapse each run of consecutive
duplicate indices to a single occurrence. -/
def collapseRuns : List Nat → List Nat
  | [] => []
  | [t] => [t]
  | a :: b :: rest =>
    if a = b then collapseRuns (b :: rest) else a :: collapseRuns (b :: rest)

/-- Reference phase 2 (spec wording): drop the blanks (index `0`). -/
def dropBlanks (l : List Nat) : List Nat := l.filter (fun t => t != 0)

/-- The spec's two-phase reference for CTC decoding: collapse duplicate runs,
drop blanks, map the survivors to characters, truncate at the stop token. -/
def ctcReference (text_idx : List Nat) : Option (List Char) :=
  (joinToks (dropBlanks (collapseRuns text_idx))).map truncAtStop

/-- Collapse relative to a previous element `prev` (proof helper bridging
`ctcKeep` and `collapseRuns`). -/
def collapseFrom : Option Nat → List Nat → List Nat
  | _, [] => []
  | prev, a :: rest =>
    if some a = prev then collapseFrom (some a) rest
    else a :: collapseFrom (some a) rest

/-! ### FUNSD annotation parsing (dataset.py) -/

/-- The `TEXT_CLASSES` keys: the categorical labels a FUNSD line may carry. -/
inductive TextClass where
  | question
  | answer
  | header
  | other
deriving DecidableEq

/-- The `TEXT_CLASSES` dictionary. -/
def TEXT_CLASSES : TextClass → Int
  | .question => 0
  | .answer => 1
  | .header => 2
  | .other => 3

/-- An axis-aligned bounding box `[x0, y0, x1, y1]` (four floats). -/
structure Bbox where
  x0 : ℚ
  y0 : ℚ
  x1 : ℚ
  y1 : ℚ
deriving DecidableEq

/-- `_bbox2poly`: the four corner points, clockwise from the top left. -/
def bbox2poly (bbox : Bbox) : List ℚ :=
  [bbox.x0, bbox.y0, bbox.x1, bbox.y0, bbox.x1, bbox.y1, bbox.x0, bbox.y1]

/-- A word-level record of a FUNSD `form` entry. -/
structure FunsdWord where
  box : Bbox
  text : List Char
deriving DecidableEq

/-- A line-level record of the FUNSD `form` list. -/
structure FunsdLine where
  box : Bbox
  text : List Char
  label : TextClass
  words : List FunsdWord
deriving DecidableEq

/-- One parsed annotation entry `(poly, transcript, text_class, ignore_tag)`. -/
structure AnnoEntry where
  poly : List ℚ
  transcript : List Char
  textClass : Int
  ignoreTag : Bool
deriving DecidableEq

/-- Keep only the characters present in `Lexicon_Table_95`. -/
def filterLexicon (t : List Char) : List Char :=
  t.filter (fun c => Lexicon_Table_95.contains c)

/-- The loop of `_parse_ann_info_funsd`: build the line-level and word-level
collections (in that order) from the `form` records. -/
def processForm : List FunsdLine → List AnnoEntry × List AnnoEntry
  | [] => ([], [])
  | line :: rest =>
    let (lns, wds) := processForm rest
    if line.text.length = 0 then (lns, wds)
    else
      let lineEntry : AnnoEntry :=
        ⟨bbox2poly line.box, filterLexicon line.text, TEXT_CLASSES line.label, false⟩
      let wordEntries :=
        line.words.map
          (fun w => (⟨bbox2poly w.box, filterLexicon w.text, -1, false⟩ : AnnoEntry))
      (lineEntry :: lns, wordEntries ++ wds)

/-- The parse result: the `res` dictionary with its `word` and `line` keys. -/
structure ParseRes where
  word : List AnnoEntry
  line : List AnnoEntry
deriving DecidableEq

/-- `_parse_ann_info_funsd` on a decoded `form` list; `none` models the
invalid-example signal `None`. -/
def parseAnnInfoFunsd (form : List FunsdLine) : Option ParseRes :=
  let (lns, wds) := processForm form
  if lns.length = 0 ∨ wds.length = 0 then none else some ⟨wds, lns⟩

/-! ### Box sorting (dataset.py) -/

/-- `compare_key`: the sort key of an entry, given the function `center`
computing the minimal-area-rectangle center `(x, y)` of a polygon
(`cv2.minAreaRect`, external to the repository, is kept abstract). -/
def compareKey (center : List ℚ → ℚ × ℚ) (left_right_first : Bool)
    (e : AnnoEntry) : ℚ × ℚ :=
  let c := center e.poly
  if left_right_first then (c.1, c.2) else (c.2, c.1)

/-- Lexicographic comparison of two sort keys, as Python compares tuples. -/
def keyLe (p q : ℚ × ℚ) : Prop :=
  p.1 < q.1 ∨ (p.1 = q.1 ∧ p.2 ≤ q.2)

instance : DecidableRel keyLe := by
  intro p q
  unfold keyLe
  infer_instance

/-- `_sort_box_with_list`: a stable sort of the entries by `compare_key`
(Python's `sorted` is a stable mergesort; a stable insertion sort produces
the same list for a total preorder on keys). -/
def sortBoxWithList (center : List ℚ → ℚ × ℚ) (anno : List AnnoEntry)
    (left_right_first : Bool) : List AnnoEntry :=
  List.insertionSort
    (fun a b => keyLe (compareKey center left_right_first a)
      (compareKey center left_right_first b)) anno

/-! ### Pixels (random_erasing.py) -/

/-- What `Pixels.__call__` returns in each supported mode: a normal sample of
shape `(1, 1, 3)`, a normal sample of shape `(h, w, c)`, or the constant
mean (the sampled values themselves are irrelevant to the claims). -/
inductive PixelsResult where
  | randOne
  | randFull (h w c : Nat)
  | constMean (mean : List ℚ)
deriving DecidableEq

/-- The message of the exception raised by `Pixels.__call__`. -/
def invalidModeMsg : String :=
  "Invalid mode in RandomErasing, only support \x22const\x22, \x22rand\x22, \x22pixel\x22"

/-- `Pixels.__call__(h, w, c)` for a `Pixels` built with `mode` and `mean`. -/
def pixelsCall (mode : String) (mean : List ℚ) (h w c : Nat) :
    Except String PixelsResult :=
  if mode = "rand" then .ok .randOne
  else if mode = "pixel" then .ok (.randFull h w c)
  else if mode = "const" then .ok (.constMean mean)
  else .error invalidModeMsg

/-! ### AdamWDL._append_optimize_op (CAE utils.py) -/

/-- The global names bound at module level in `utils.py` (imports, the
module's own definitions, and the later rebinding `AdamW = AdamWDL`). -/
def utilsModuleGlobals : List String :=
  ["partial", "math", "np", "paddle", "fluid", "core", "AdamW", "__all__",
   "layerwise_lr_decay", "AdamWDL", "create_optimizer", "cosine_scheduler",
   "polynomial_scheduler"]

/-- Python name resolution at the `super(AdamLW, self)` call site: the name
is neither local to `_append_optimize_op` nor a builtin, so it must be a
module global. -/
def resolveGlobal (n : String) : Option String :=
  if utilsModuleGlobals.contains n then some n else none

/-- A Python error surfaced by the optimizer step. -/
inductive PyError where
  | nameError (n : String)
deriving DecidableEq

/-- The `optimize_attr` state of `param_and_grad[0]` (only the learning rate
matters here). -/
structure ParamState where
  lr : ℚ
deriving DecidableEq

/-- `AdamWDL._append_optimize_op`: with `set_param_lr_fun = None` it
evaluates `super(AdamLW, self)`; otherwise it rescales the learning rate,
runs the base Adam op at that rate, and restores the rate.  Returns the
final parameter state and the learning rate the Adam op actually used. -/
def appendOptimizeOp (set_param_lr_fun : Option (ParamState → ParamState))
    (p : ParamState) : Except PyError (ParamState × ℚ) :=
  match set_param_lr_fun with
  | none =>
    match resolveGlobal "AdamLW" with
    | none => .error (.nameError "AdamLW")
    | some _ => .ok (p, p.lr)
  | some f =>
    let prev_lr := p.lr
    let p2 := f p
    .ok ({ p2 with lr := prev_lr }, p2.lr)

/-! ### cosine_scheduler (CAE utils.py) -/

/-- A symbolic schedule entry: the `i`-th warmup value of `np.linspace`, or
the `i`-th cosine value (the float values play no role in the claims). -/
inductive SchedEntry where
  | warmup (i : Nat)
  | cosine (i : Nat)
deriving DecidableEq

/-- The schedule `cosine_scheduler` builds before its final assertion:
the `np.linspace` warmup block when `warmup_iters > 0`, then one cosine
entry per element of `np.arange(total_iters - warmup_iters)` (empty for a
non-positive argument). -/
def cosineSchedulerRaw (total_iters : Nat) (warmup_iters : Int) :
    List SchedEntry :=
  let warmup_schedule :=
    if warmup_iters > 0 then (List.range warmup_iters.toNat).map SchedEntry.warmup
    else []
  let iters := ((total_iters : Int) - warmup_iters).toNat
  warmup_schedule ++ (List.range iters).map SchedEntry.cosine

/-- `cosine_scheduler` with the final `assert len(schedule) == total_iters`;
`none` models the `AssertionError`. -/
def cosineScheduler (total_iters : Nat) (warmup_iters : Int) :
    Option (List SchedEntry) :=
  let schedule := cosineSchedulerRaw total_iters warmup_iters
  if schedule.length = total_iters then some schedule else none

/-! ### Concrete inputs for counterexamples and witnesses -/

/-- The transcript `[stop]` (six supported characters). -/
def cexStopText : List Char := ['[', 's', 't', 'o', 'p', ']']

/-- A transcript of 51 copies of `A`, longer than the default `seq_len` 50. -/
def cexLongText : List Char := List.replicate 51 'A'

/-- A two-character witness transcript. -/
def witText : List Char := ['a', 'b']

/-- A witness `form` list: one line with one word, both with transcripts. -/
def witForm : List FunsdLine :=
  [{ box := ⟨0, 1, 2, 3⟩, text := ['A', 'b'], label := .question,
     words := [{ box := ⟨0, 1, 1, 3⟩, text := ['A'] }] }]

/-- The parse result of `witForm` (`word` collection first, then `line`). -/
def witParseRes : ParseRes :=
  ⟨[⟨[0, 1, 1, 1, 1, 3, 0, 3], ['A'], -1, false⟩],
   [⟨[0, 1, 2, 1, 2, 3, 0, 3], ['A', 'b'], 0, false⟩]⟩

/-- A `form` list whose records all carry empty transcripts. -/
def emptyTextForm : List FunsdLine :=
  [{ box := ⟨0, 0, 4, 4⟩, text := [], label := .other,
     words := [{ box := ⟨0, 0, 2, 2⟩, text := ['x'] }] },
   { box := ⟨1, 1, 5, 5⟩, text := [], label := .header, words := [] }]

/-! ## Supporting lemmas: the lexicon dictionary -/

theorem lookupIdx_some {tok : List Char} :
    ∀ (l : List (List Char)) (i j : Nat),
      lookupIdx tok l i = some j → i ≤ j ∧ l[j - i]? = some tok
  | [], i, j => by simp [lookupIdx]
  | t :: rest, i, j => by
    intro h
    rw [lookupIdx] at h
    by_cases ht : t = tok
    · rw [if_pos ht] at h
      obtain rfl : i = j := by simpa using h
      simp [ht]
    · rw [if_neg ht] at h
      obtain ⟨hij, hget⟩ := lookupIdx_some rest (i + 1) j h
      refine ⟨by omega, ?_⟩
      have hji : j - i = (j - (i + 1)) + 1 := by omega
      rw [hji]
      simpa using hget

theorem char2idx_roundtrip {tok : List Char} {i : Nat}
    (h : char2idx tok = some i) : idx2char[i]? = some tok := by
  have hh := lookupIdx_some idx2char 0 i h
  simpa using hh.2

theorem char2idx_stopTok : char2idx stopTok = some 1 := by decide

theorem char2idx_padTok : char2idx padTok = some 0 := by decide

set_option maxRecDepth 8192 in
theorem lexicon_upper_isSome :
    ∀ c ∈ Lexicon_Table_95, (char2idx [Char.toUpper c]).isSome := by decide

/-! ## Supporting lemmas: token-index mapping -/

theorem mapChar2Idx_some :
    ∀ (toks : List (List Char)), (∀ tok ∈ toks, (char2idx tok).isSome) →
      ∃ l, mapChar2Idx toks = some l ∧ l.length = toks.length
  | [] => fun _ => ⟨[], rfl, rfl⟩
  | tok :: rest => fun h => by
    obtain ⟨i, hi⟩ := Option.isSome_iff_exists.mp (h tok (by simp))
    obtain ⟨l, hl, hlen⟩ := mapChar2Idx_some rest (fun t ht => h t (by simp [ht]))
    exact ⟨i :: l, by simp [mapChar2Idx, hi, hl], by simp [hlen]⟩

theorem mapChar2Idx_none_iff :
    ∀ (toks : List (List Char)),
      mapChar2Idx toks = none ↔ ∃ tok ∈ toks, char2idx tok = none
  | [] => by simp [mapChar2Idx]
  | tok :: rest => by
    have ih := mapChar2Idx_none_iff rest
    cases h : char2idx tok with
    | none =>
      simp only [mapChar2Idx, h]
      constructor
      · intro _; exact ⟨tok, by simp, h⟩
      · intro _; trivial
    | some i =>
      cases h2 : mapChar2Idx rest with
      | none =>
        obtain ⟨t, ht, hnone⟩ := ih.mp h2
        simp only [mapChar2Idx, h, h2]
        constructor
        · intro _; exact ⟨t, by simp [ht], hnone⟩
        · intro _; trivial
      | some l =>
        simp only [mapChar2Idx, h, h2]
        constructor
        · intro hco; exact absurd hco (by simp)
        · rintro ⟨t, ht, hnone⟩
          rcases List.mem_cons.mp ht with rfl | htr
          · rw [h] at hnone; cases hnone
          · exact absurd (ih.mpr ⟨t, htr, hnone⟩) (by simp [h2])

theorem mapChar2Idx_roundtrip :
    ∀ (toks : List (List Char)) (idxs : List Nat),
      mapChar2Idx toks = some idxs → mapIdx2Char idxs = some toks
  | [], idxs => by
    intro h
    simp only [mapChar2Idx] at h
    obtain rfl : idxs = [] := by simpa using h.symm
    rfl
  | tok :: rest, idxs => by
    intro h
    cases hc : char2idx tok with
    | none => simp only [mapChar2Idx, hc] at h; cases h
    | some i =>
      cases hr : mapChar2Idx rest with
      | none => simp only [mapChar2Idx, hc, hr] at h; cases h
      | some l =>
        simp only [mapChar2Idx, hc, hr] at h
        obtain rfl : idxs = i :: l := by simpa using h.symm
        have hm := mapChar2Idx_roundtrip rest l hr
        simp [mapIdx2Char, char2idx_roundtrip hc, hm]

theorem mapIdx2Char_append :
    ∀ (l1 : List Nat) (l2 : List Nat) (r1 r2 : List (List Char)),
      mapIdx2Char l1 = some r1 → mapIdx2Char l2 = some r2 →
        mapIdx2Char (l1 ++ l2) = some (r1 ++ r2)
  | [], l2, r1, r2 => by
    intro h1 h2
    simp only [mapIdx2Char] at h1
    obtain rfl : r1 = [] := by simpa using h1.symm
    simpa using h2
  | i :: rest, l2, r1, r2 => by
    intro h1 h2
    cases hi : idx2char[i]? with
    | none => simp only [mapIdx2Char, hi] at h1; cases h1
    | some s =>
      cases hr : mapIdx2Char rest with
      | none => simp only [mapIdx2Char, hi, hr] at h1; cases h1
      | some l =>
        simp only [mapIdx2Char, hi, hr] at h1
        obtain rfl : r1 = s :: l := by simpa using h1.symm
        have hm := mapIdx2Char_append rest l2 l r2 hr h2
        simp [mapIdx2Char, hi, hm]

theorem mapIdx2Char_replicate_pad :
    ∀ k : Nat, mapIdx2Char (List.replicate k 0) = some (List.replicate k padTok)
  | 0 => rfl
  | k + 1 => by
    have hi : idx2char[0]? = some padTok := rfl
    simp only [List.replicate_succ, mapIdx2Char, hi, mapIdx2Char_replicate_pad k]

theorem flatten_map_singleton :
    ∀ l : List Char, (l.map (fun c => [c])).flatten = l
  | [] => rfl
  | c :: rest => by simp [flatten_map_singleton rest]

/-! ## Claim theorems for LabelConverter.encode -/

/-- Length of the truncated-or-padded sequence built by `encode`. -/
theorem encode_core_length (seq_len : Nat) (text_idx : List Nat) (n : Nat)
    (hlen : text_idx.length = n) :
    (if n > seq_len then text_idx.take seq_len
      else text_idx ++ (List.replicate seq_len 0).drop n).length = seq_len := by
  split
  · rename_i hgt
    simp only [List.length_take]
    omega
  · rename_i hgt
    simp only [List.length_append, List.length_drop, List.length_replicate]
    omega

/-- C2: for every transcript over the 95 supported characters, every
`ignore_tag` and every `seq_len`, `encode` succeeds and its first component
has length exactly `seq_len`. -/
theorem encode_padded_length (seq_len : Nat) (text : List Char) (ignore_tag : Bool)
    (hchars : ∀ c ∈ text, c ∈ Lexicon_Table_95) :
    ∃ p, encode seq_len text ignore_tag = some p ∧ p.1.length = seq_len := by
  have hchars2 : ∀ c ∈ (if ignore_tag then [] else text), c ∈ Lexicon_Table_95 := by
    intro c hc
    cases ignore_tag with
    | true => simp at hc
    | false => exact hchars c (by simpa using hc)
  have htoks : ∀ tok ∈ (pyUpper (if ignore_tag then [] else text)).map (fun c => [c])
      ++ [stopTok], (char2idx tok).isSome := by
    intro tok htok
    rcases List.mem_append.mp htok with hm | hm
    · obtain ⟨c, hc, rfl⟩ := List.mem_map.mp hm
      obtain ⟨c0, hc0, rfl⟩ := List.mem_map.mp hc
      exact lexicon_upper_isSome c0 (hchars2 c0 hc0)
    · have h : tok = stopTok := by simpa using hm
      rw [h, char2idx_stopTok]; rfl
  obtain ⟨text_idx, hmap, hlen⟩ := mapChar2Idx_some _ htoks
  simp only [encode, hmap, char2idx_padTok]
  exact ⟨_, rfl, encode_core_length seq_len text_idx _ hlen⟩

/-- C2 witness: at `seq_len = 3`, transcript `ab`, `ignore_tag` unset. -/
theorem encode_padded_length_witness :
    ∃ p, encode 3 witText false = some p ∧ p.1.length = 3 :=
  encode_padded_length 3 witText false (by decide)

/-- Shape of a failing token among the encoded tokens. -/
theorem toks_none_iff (up : List Char) :
    (∃ tok ∈ up.map (fun c => [c]) ++ [stopTok], char2idx tok = none) ↔
      ∃ c ∈ up, char2idx [c] = none := by
  constructor
  · rintro ⟨tok, htok, hnone⟩
    rcases List.mem_append.mp htok with hm | hm
    · obtain ⟨c, hc, rfl⟩ := List.mem_map.mp hm
      exact ⟨c, hc, hnone⟩
    · have h : tok = stopTok := by simpa using hm
      rw [h, char2idx_stopTok] at hnone; cases hnone
  · rintro ⟨c, hc, hnone⟩
    exact ⟨[c], List.mem_append.mpr (Or.inl (List.mem_map.mpr ⟨c, hc, rfl⟩)), hnone⟩

/-- C6: with `ignore_tag` set, `encode` never fails; with it unset, `encode`
fails (the Python `KeyError`) exactly when the uppercased transcript has a
character whose single-character string is outside the `char2idx` table. -/
theorem encode_keyerror_iff (seq_len : Nat) (text : List Char) :
    (∃ p, encode seq_len text true = some p) ∧
    (encode seq_len text false = none ↔
      ∃ c ∈ pyUpper text, char2idx [c] = none) := by
  constructor
  · have hm : mapChar2Idx ((pyUpper ([] : List Char)).map (fun c => [c]) ++ [stopTok])
        = some [1] := by decide
    simp only [encode, if_pos rfl, hm, char2idx_padTok]
    exact ⟨_, rfl⟩
  · have hiff := mapChar2Idx_none_iff ((pyUpper text).map (fun c => [c]) ++ [stopTok])
    cases hm : mapChar2Idx ((pyUpper text).map (fun c => [c]) ++ [stopTok]) with
    | none =>
      simp only [encode, if_neg (by simp : ¬ (false = true)), hm, char2idx_padTok]
      simp only [true_iff]
      exact (toks_none_iff (pyUpper text)).mp (hiff.mp hm)
    | some l =>
      simp only [encode, if_neg (by simp : ¬ (false = true)), hm, char2idx_padTok]
      constructor
      · intro hco; exact absurd hco (by simp)
      · intro hc
        exact absurd (hiff.mpr ((toks_none_iff (pyUpper text)).mpr hc)) (by simp [hm])

/-! ## Claim theorem for CTC decoding -/

theorem ctcKeep_eq : ∀ (l : List Nat) (prev : Option Nat),
    ctcKeep l prev = dropBlanks (collapseFrom prev l)
  | [], prev => by simp [ctcKeep, collapseFrom, dropBlanks]
  | a :: rest, prev => by
    have ih := ctcKeep_eq rest (some a)
    by_cases hp : some a = prev
    · have hcond : ¬(a ≠ 0 ∧ prev ≠ some a) := fun h => h.2 hp.symm
      simp only [ctcKeep, collapseFrom, if_pos hp, if_neg hcond, ih]
    · by_cases h0 : a = 0
      · have hcond : ¬(a ≠ 0 ∧ prev ≠ some a) := fun h => h.1 h0
        simp only [ctcKeep, collapseFrom, if_neg hp, if_neg hcond, ih, dropBlanks]
        subst h0
        simp [List.filter_cons]
      · have hcond : a ≠ 0 ∧ prev ≠ some a := ⟨h0, fun h => hp h.symm⟩
        simp only [ctcKeep, collapseFrom, if_neg hp, if_pos hcond, ih, dropBlanks]
        simp [List.filter_cons, h0]

theorem collapseFrom_cons_eq : ∀ (a : Nat) (t : List Nat),
    a :: collapseFrom (some a) t = collapseRuns (a :: t)
  | _, [] => by simp [collapseFrom, collapseRuns]
  | a, b :: r => by
    have ih := collapseFrom_cons_eq b r
    by_cases hab : a = b
    · subst hab
      rw [collapseRuns, if_pos rfl, ← ih, collapseFrom, if_pos rfl]
    · rw [collapseRuns, if_neg hab, ← ih, collapseFrom,
        if_neg (fun h => hab (Option.some.inj h).symm)]

theorem collapseFrom_none : ∀ l : List Nat, collapseFrom none l = collapseRuns l
  | [] => by simp [collapseFrom, collapseRuns]
  | a :: t => by
    rw [collapseFrom, if_neg (by simp), collapseFrom_cons_eq]

theorem collapseRuns_head : ∀ (a : Nat) (t : List Nat),
    ∃ tl, collapseRuns (a :: t) = a :: tl
  | _, [] => ⟨[], rfl⟩
  | a, b :: r => by
    by_cases hab : a = b
    · subst hab
      obtain ⟨tl, htl⟩ := collapseRuns_head a r
      exact ⟨tl, by rw [collapseRuns, if_pos rfl, htl]⟩
    · exact ⟨collapseRuns (b :: r), by rw [collapseRuns, if_neg hab]⟩

theorem collapseRuns_chain :
    ∀ l : List Nat, List.Chain' (fun a b => a ≠ b) (collapseRuns l)
  | [] => by simp [collapseRuns]
  | [t] => by simp [collapseRuns]
  | a :: b :: rest => by
    by_cases hab : a = b
    · rw [collapseRuns, if_pos hab]
      exact collapseRuns_chain (b :: rest)
    · rw [collapseRuns, if_neg hab]
      obtain ⟨tl, htl⟩ := collapseRuns_head b rest
      rw [htl, List.chain'_cons]
      refine ⟨hab, ?_⟩
      have hc := collapseRuns_chain (b :: rest)
      rwa [htl] at hc

/-- C3: CTC-mode decode coincides with the spec's two-phase reference
computation, and the collapsed intermediate sequence has no adjacent
repeats. -/
theorem ctc_decode_eq_reference (text_idx : List Nat) :
    decode "CTC" text_idx = ctcReference text_idx ∧
      List.Chain' (fun a b => a ≠ b) (collapseRuns text_idx) := by
  refine ⟨?_, collapseRuns_chain text_idx⟩
  have h1 : decode "CTC" text_idx = (joinToks (ctcKeep text_idx none)).map truncAtStop := by
    simp [decode]
  rw [h1, ctcReference, ctcKeep_eq, collapseFrom_none]

/-! ## Claim theorems for annotation parsing -/

theorem processForm_cons (line : FunsdLine) (rest : List FunsdLine) :
    processForm (line :: rest) =
      if line.text.length = 0 then processForm rest
      else
        (⟨bbox2poly line.box, filterLexicon line.text, TEXT_CLASSES line.label, false⟩
            :: (processForm rest).1,
          line.words.map
            (fun w => (⟨bbox2poly w.box, filterLexicon w.text, -1, false⟩ : AnnoEntry))
            ++ (processForm rest).2) := by
  rcases h : processForm rest with ⟨lns, wds⟩
  simp [processForm, h]

theorem processForm_fst_nil_iff :
    ∀ form : List FunsdLine,
      (processForm form).1 = [] ↔ ∀ line ∈ form, line.text = []
  | [] => by simp [processForm]
  | line :: rest => by
    have ih := processForm_fst_nil_iff rest
    rw [processForm_cons]
    by_cases h : line.text.length = 0
    · have htext : line.text = [] := List.length_eq_zero.mp h
      rw [if_pos h]
      simp [List.forall_mem_cons, htext, ih]
    · rw [if_neg h]
      simp only [List.forall_mem_cons]
      constructor
      · intro hco; exact absurd hco (by simp)
      · intro hall
        exact absurd hall.1 (fun he => h (by simp [he]))

theorem processForm_snd_nil_iff :
    ∀ form : List FunsdLine,
      (processForm form).2 = [] ↔
        ∀ line ∈ form, line.text ≠ [] → line.words = []
  | [] => by simp [processForm]
  | line :: rest => by
    have ih := processForm_snd_nil_iff rest
    rw [processForm_cons]
    by_cases h : line.text.length = 0
    · have htext : line.text = [] := List.length_eq_zero.mp h
      rw [if_pos h]
      simp [List.forall_mem_cons, htext, ih]
    · rw [if_neg h]
      have htext : line.text ≠ [] := fun he => h (by simp [he])
      simp [List.forall_mem_cons, htext, ih, List.append_eq_nil]

theorem parse_none_iff (form : List FunsdLine) :
    parseAnnInfoFunsd form = none ↔
      ((processForm form).1 = [] ∨ (processForm form).2 = []) := by
  rcases h : processForm form with ⟨lns, wds⟩
  simp only [parseAnnInfoFunsd, h]
  by_cases hc : lns.length = 0 ∨ wds.length = 0
  · simp only [if_pos hc, true_iff]
    rcases hc with hc | hc
    · exact Or.inl (List.length_eq_zero.mp hc)
    · exact Or.inr (List.length_eq_zero.mp hc)
  · simp only [if_neg hc]
    constructor
    · intro hco; cases hco
    · rintro (hnil | hnil)
      · exact absurd (Or.inl (by simp [hnil])) hc
      · exact absurd (Or.inr (by simp [hnil])) hc

/-- C4: `_parse_ann_info_funsd` signals an invalid example (`None`) exactly
when the line-level collection or the word-level collection ends up empty;
in particular a `form` list of records with empty transcripts yields `None`. -/
theorem parse_invalid_iff (form : List FunsdLine) :
    (parseAnnInfoFunsd form = none ↔
      ((∀ line ∈ form, line.text = []) ∨
        (∀ line ∈ form, line.text ≠ [] → line.words = []))) ∧
    ((∀ line ∈ form, line.text = []) → parseAnnInfoFunsd form = none) := by
  have h1 := parse_none_iff form
  have h2 := processForm_fst_nil_iff form
  have h3 := processForm_snd_nil_iff form
  constructor
  · rw [h1, h2, h3]
  · intro hall
    rw [h1]
    exact Or.inl (h2.mpr hall)

/-- C4 witness: a concrete two-record `form` list with empty transcripts. -/
theorem parse_invalid_iff_witness : parseAnnInfoFunsd emptyTextForm = none :=
  (parse_invalid_iff emptyTextForm).2 (by decide)

theorem processForm_ignore :
    ∀ form : List FunsdLine,
      (∀ e ∈ (processForm form).1, e.ignoreTag = false) ∧
        (∀ e ∈ (processForm form).2, e.ignoreTag = false)
  | [] => by simp [processForm]
  | line :: rest => by
    have ih := processForm_ignore rest
    rw [processForm_cons]
    by_cases h : line.text.length = 0
    · rw [if_pos h]; exact ih
    · rw [if_neg h]
      constructor
      · intro e he
        rcases List.mem_cons.mp he with rfl | he2
        · rfl
        · exact ih.1 e he2
      · intro e he
        rcases List.mem_append.mp he with he2 | he2
        · obtain ⟨w, _, rfl⟩ := List.mem_map.mp he2
          rfl
        · exact ih.2 e he2

/-- C9: both collections returned by a successful `_parse_ann_info_funsd`
carry only entries whose ignore flag is `False`. -/
theorem parse_entries_not_ignored (form : List FunsdLine) (r : ParseRes)
    (h : parseAnnInfoFunsd form = some r) :
    (∀ e ∈ r.line, e.ignoreTag = false) ∧
      (∀ e ∈ r.word, e.ignoreTag = false) := by
  have hi := processForm_ignore form
  rcases hp : processForm form with ⟨lns, wds⟩
  rw [hp] at hi
  simp only [parseAnnInfoFunsd, hp] at h
  by_cases hc : lns.length = 0 ∨ wds.length = 0
  · rw [if_pos hc] at h; cases h
  · rw [if_neg hc] at h
    obtain rfl : r = ⟨wds, lns⟩ := by simpa using h.symm
    exact ⟨by simpa using hi.1, by simpa using hi.2⟩

/-- C9 witness: the parse of the concrete `witForm`. -/
theorem parse_entries_not_ignored_witness :
    (∀ e ∈ witParseRes.line, e.ignoreTag = false) ∧
      (∀ e ∈ witParseRes.word, e.ignoreTag = false) :=
  parse_entries_not_ignored witForm witParseRes (by decide)

/-! ## Claim theorem for box sorting -/

theorem keyLe_total (p q : ℚ × ℚ) : keyLe p q ∨ keyLe q p := by
  rcases lt_trichotomy p.1 q.1 with h | h | h
  · exact Or.inl (Or.inl h)
  · rcases le_total p.2 q.2 with h2 | h2
    · exact Or.inl (Or.inr ⟨h, h2⟩)
    · exact Or.inr (Or.inr ⟨h.symm, h2⟩)
  · exact Or.inr (Or.inl h)

theorem keyLe_trans (p q r : ℚ × ℚ) : keyLe p q → keyLe q r → keyLe p r := by
  rintro (h1 | ⟨h1, h1b⟩) (h2 | ⟨h2, h2b⟩)
  · exact Or.inl (h1.trans h2)
  · exact Or.inl (lt_of_lt_of_eq h1 h2)
  · exact Or.inl (lt_of_eq_of_lt h1 h2)
  · exact Or.inr ⟨h1.trans h2, h1b.trans h2b⟩

/-- C5: `_sort_box_with_list` returns a permutation of its input that is
sorted ascending by (y, x) of the rectangle centers when
`left_right_first` is `False`, and by (x, y) when it is `True`, ties
broken by the secondary coordinate — for any center function. -/
theorem sort_box_sorted_perm (center : List ℚ → ℚ × ℚ) (anno : List AnnoEntry) :
    (sortBoxWithList center anno false).Pairwise
        (fun a b => (center a.poly).2 < (center b.poly).2 ∨
          ((center a.poly).2 = (center b.poly).2 ∧
            (center a.poly).1 ≤ (center b.poly).1)) ∧
    (sortBoxWithList center anno true).Pairwise
        (fun a b => (center a.poly).1 < (center b.poly).1 ∨
          ((center a.poly).1 = (center b.poly).1 ∧
            (center a.poly).2 ≤ (center b.poly).2)) ∧
    (sortBoxWithList center anno false).Perm anno ∧
    (sortBoxWithList center anno true).Perm anno := by
  have hmk : ∀ lrf : Bool,
      List.Sorted
        (fun a b => keyLe (compareKey center lrf a) (compareKey center lrf b))
        (sortBoxWithList center anno lrf) := by
    intro lrf
    haveI : IsTotal AnnoEntry
        (fun a b => keyLe (compareKey center lrf a) (compareKey center lrf b)) :=
      ⟨fun a b => keyLe_total _ _⟩
    haveI : IsTrans AnnoEntry
        (fun a b => keyLe (compareKey center lrf a) (compareKey center lrf b)) :=
      ⟨fun a b c => keyLe_trans _ _ _⟩
    exact List.sorted_insertionSort _ _
  refine ⟨?_, ?_, List.perm_insertionSort _ _, List.perm_insertionSort _ _⟩
  · exact (hmk false).imp (fun hab => by simpa [keyLe, compareKey] using hab)
  · exact (hmk true).imp (fun hab => by simpa [keyLe, compareKey] using hab)

/-! ## Claim theorems for Pixels.__call__ -/

/-- C7 counterexample: the error raised for the unsupported mode `xyz` does
not name that mode; its message is the fixed supported-modes text. -/
theorem pixels_cex :
    pixelsCall "xyz" [] 1 1 1 = .error invalidModeMsg ∧
      ¬ (['x', 'y', 'z'] <:+: invalidModeMsg.toList) := by
  constructor
  · rfl
  · decide

/-- C7 (amended): every mode outside `const`, `rand`, `pixel` makes
`Pixels.__call__` raise the fixed invalid-mode error naming the supported
modes, and each of the three supported modes returns without error. -/
theorem pixels_invalid_mode (mode : String) (mean : List ℚ) (h w c : Nat) :
    (mode ∉ (["const", "rand", "pixel"] : List String) →
      pixelsCall mode mean h w c = .error invalidModeMsg) ∧
    (mode ∈ (["const", "rand", "pixel"] : List String) →
      ∃ r, pixelsCall mode mean h w c = .ok r) := by
  constructor
  · intro hm
    simp only [List.mem_cons, List.not_mem_nil, or_false, not_or] at hm
    rw [pixelsCall, if_neg hm.2.1, if_neg hm.2.2, if_neg hm.1]
  · intro hm
    simp only [List.mem_cons, List.not_mem_nil, or_false] at hm
    rcases hm with rfl | rfl | rfl <;> exact ⟨_, rfl⟩

/-- C7 witness: the amended statement at the concrete mode `solid`. -/
theorem pixels_invalid_mode_witness :
    pixelsCall "solid" [] 4 4 3 = .error invalidModeMsg :=
  (pixels_invalid_mode "solid" [] 4 4 3).1 (by decide)

/-! ## Claim theorem for AdamWDL._append_optimize_op -/

/-- C8: with `set_param_lr_fun = None`, the fallback branch fails with a
`NameError` on `AdamLW`, which is bound nowhere in the module. -/
theorem append_optimize_op_name_error (p : ParamState) :
    appendOptimizeOp none p = .error (.nameError "AdamLW") ∧
      "AdamLW" ∉ utilsModuleGlobals :=
  ⟨rfl, by decide⟩

/-! ## Claim theorem for cosine_scheduler -/

/-- C10: the final assertion of `cosine_scheduler` holds — and the returned
schedule has exactly `total_iters` entries — iff
`0 ≤ warmup_iters ≤ total_iters`; with the default `warmup_iters = -1` the
schedule has `total_iters + 1` entries and the assertion fails. -/
theorem cosine_scheduler_assert_iff (total_iters : Nat) (warmup_iters : Int) :
    ((∃ s, cosineScheduler total_iters warmup_iters = some s ∧
        s.length = total_iters) ↔
      (0 ≤ warmup_iters ∧ warmup_iters ≤ total_iters)) ∧
    (cosineSchedulerRaw total_iters (-1)).length = total_iters + 1 ∧
    cosineScheduler total_iters (-1) = none := by
  have hraw : ∀ w : Int, (cosineSchedulerRaw total_iters w).length =
      (if w > 0 then w.toNat else 0) + ((total_iters : Int) - w).toNat := by
    intro w
    by_cases hw : w > 0
    · simp [cosineSchedulerRaw, hw]
    · simp [cosineSchedulerRaw, hw]
  have hlen : ∀ w : Int, ((cosineSchedulerRaw total_iters w).length = total_iters ↔
      (0 ≤ w ∧ w ≤ total_iters)) := by
    intro w
    rw [hraw w]
    by_cases hw : w > 0
    · rw [if_pos hw]
      constructor
      · intro h; constructor <;> omega
      · intro h; omega
    · rw [if_neg hw]
      constructor
      · intro h; constructor <;> omega
      · intro h; omega
  have hm1 : (cosineSchedulerRaw total_iters (-1)).length = total_iters + 1 := by
    rw [hraw (-1), if_neg (by omega)]
    omega
  refine ⟨?_, hm1, ?_⟩
  · constructor
    · rintro ⟨s, hs, hsl⟩
      simp only [cosineScheduler] at hs
      by_cases hc : (cosineSchedulerRaw total_iters warmup_iters).length = total_iters
      · exact (hlen warmup_iters).mp hc
      · rw [if_neg hc] at hs; cases hs
    · intro hbound
      have hc := (hlen warmup_iters).mpr hbound
      exact ⟨_, by simp only [cosineScheduler, if_pos hc], hc⟩
  · have hne : (cosineSchedulerRaw total_iters (-1)).length ≠ total_iters := by
      rw [hm1]; omega
    simp only [cosineScheduler, if_neg hne]

/-! ## Claim theorems for CE decoding of an encoded transcript -/

theorem findSub_eq_some (pat : List Char) :
    ∀ (n : Nat) (l : List Char), pat.isPrefixOf (l.drop n) →
      (∀ i, i < n → ¬ pat.isPrefixOf (l.drop i)) → findSub pat l = some n
  | 0, l => by
    intro hp _
    cases l with
    | nil => simp only [findSub]; rw [if_pos (by simpa using hp)]
    | cons c rest => simp only [findSub]; rw [if_pos (by simpa using hp)]
  | n + 1, l => by
    intro hp hlt
    cases l with
    | nil =>
      exact absurd (by simpa using hp) (by simpa using hlt 0 (Nat.succ_pos n))
    | cons c rest =>
      rw [findSub, if_neg (by simpa using hlt 0 (Nat.succ_pos n))]
      have hs := findSub_eq_some pat n rest
        (by simpa [List.drop_succ_cons] using hp)
        (fun i hi => by simpa [List.drop_succ_cons] using hlt (i + 1) (by omega))
      rw [hs]
      rfl

theorem decode_ce (l : List Nat) :
    decode "CE" l = (joinToks l).map truncAtStop := by
  simp [decode]

theorem stopTok_get_ne (m : Nat) (h1 : 1 ≤ m) (h6 : m < 6) :
    stopTok[m]? ≠ some '[' := by
  interval_cases m <;> decide

theorem truncAtStop_append (up X : List Char) (hstop : ¬ stopTok <:+: up) :
    truncAtStop (up ++ (stopTok ++ X)) = up := by
  have hst : stopTok.length = 6 := rfl
  have hfind : findSub stopTok (up ++ (stopTok ++ X)) = some up.length := by
    apply findSub_eq_some
    · rw [List.drop_left]
      exact List.isPrefixOf_iff_prefix.mpr (List.prefix_append _ _)
    · intro i hi hpre
      have hpre2 : stopTok <+: (up ++ (stopTok ++ X)).drop i :=
        List.isPrefixOf_iff_prefix.mp hpre
      have heq : stopTok = ((up ++ (stopTok ++ X)).drop i).take stopTok.length :=
        List.prefix_iff_eq_take.mp hpre2
      by_cases hle : i + 6 ≤ up.length
      · have hdrop : (up ++ (stopTok ++ X)).drop i = up.drop i ++ (stopTok ++ X) :=
          List.drop_append_of_le_length (by omega)
        have hlen2 : stopTok.length ≤ (up.drop i).length := by
          rw [hst, List.length_drop]
          omega
        have heq2 : stopTok = (up.drop i).take stopTok.length := by
          rw [hdrop, List.take_append_of_le_length hlen2] at heq
          exact heq
        rw [hst] at heq2
        apply hstop
        refine ⟨up.take i, (up.drop i).drop 6, ?_⟩
        rw [heq2, List.append_assoc, List.take_append_drop, List.take_append_drop]
      · have hk1 : 1 ≤ up.length - i := by omega
        have hk6 : up.length - i < 6 := by omega
        have hidx := congrArg (fun l => l[up.length - i]?) heq
        simp only [List.getElem?_take, List.getElem?_drop] at hidx
        rw [if_pos (by rw [hst]; omega)] at hidx
        have hik : i + (up.length - i) = up.length := by omega
        rw [hik, List.getElem?_append, if_neg (by omega), Nat.sub_self] at hidx
        have hz : (stopTok ++ X)[0]? = some '[' := rfl
        rw [hz] at hidx
        exact stopTok_get_ne _ hk1 hk6 hidx
  simp only [truncAtStop, hfind]
  exact List.take_left _ _

/-- C1 (amended): for a transcript over the 95 supported characters whose
length is below `seq_len` and whose uppercase form does not contain the
string `[STOP]`, CE-mode decode of the padded encoding of the transcript
returns exactly the uppercased transcript. -/
theorem decode_encode_ce (seq_len : Nat) (text : List Char)
    (hchars : ∀ c ∈ text, c ∈ Lexicon_Table_95)
    (hlen : text.length < seq_len)
    (hstop : ¬ stopTok <:+: pyUpper text) :
    ∃ p, encode seq_len text false = some p ∧
      decode "CE" p.1 = some (pyUpper text) := by
  have htoks : ∀ tok ∈ (pyUpper text).map (fun c => [c]) ++ [stopTok],
      (char2idx tok).isSome := by
    intro tok htok
    rcases List.mem_append.mp htok with hm | hm
    · obtain ⟨c, hc, rfl⟩ := List.mem_map.mp hm
      obtain ⟨c0, hc0, rfl⟩ := List.mem_map.mp hc
      exact lexicon_upper_isSome c0 (hchars c0 hc0)
    · have h : tok = stopTok := by simpa using hm
      rw [h, char2idx_stopTok]; rfl
  obtain ⟨text_idx, hmap, hlenidx⟩ := mapChar2Idx_some _ htoks
  have hnotgt :
      ¬ (((pyUpper text).map (fun c => [c]) ++ [stopTok]).length > seq_len) := by
    simp only [List.length_append, List.length_map, List.length_cons,
      List.length_nil, pyUpper]
    omega
  simp only [encode, if_neg (by simp : ¬ (false = true)), hmap, char2idx_padTok]
  rw [if_neg hnotgt, List.drop_replicate]
  refine ⟨_, rfl, ?_⟩
  have hmi := mapIdx2Char_append text_idx
    (List.replicate
      (seq_len - ((pyUpper text).map (fun c => [c]) ++ [stopTok]).length) 0)
    _ _ (mapChar2Idx_roundtrip _ _ hmap) (mapIdx2Char_replicate_pad _)
  rw [decode_ce]
  simp only [List.length_append, List.length_map, List.length_cons,
    List.length_nil, Nat.zero_add] at hmi
  simp [joinToks, hmi, flatten_map_singleton]
  rw [truncAtStop_append _ _ hstop]

/-- C1 witness: the transcript `ab` at the default `seq_len = 50`. -/
theorem decode_encode_ce_witness :
    ∃ p, encode 50 witText false = some p ∧
      decode "CE" p.1 = some (pyUpper witText) :=
  decode_encode_ce 50 witText (by decide) (by decide) (by decide)

set_option maxRecDepth 8192 in
/-- C1 counterexample: at the default `seq_len = 50`, CE decode of the
encoding of the transcript `[stop]` yields the empty string rather than the
uppercased transcript, and for a 51-character transcript it yields only the
first 50 characters. -/
theorem decode_encode_ce_cex :
    ((encode 50 cexStopText false).bind (fun p => decode "CE" p.1) = some [] ∧
      pyUpper cexStopText ≠ ([] : List Char)) ∧
    ((encode 50 cexLongText false).bind (fun p => decode "CE" p.1)
        = some (List.replicate 50 'A') ∧
      pyUpper cexLongText ≠ List.replicate 50 'A') := by
  refine ⟨⟨by decide, by decide⟩, ⟨by decide, by decide⟩⟩

end VIMER
